import Mathlib

/-! Verification of the timing and segment-selection logic of a short-video
assembly tool: the background window selector (video_creation/background.py)
and the speech-synthesis accounting loop (TTS/engine_wrapper.py), modelled
as executable Lean definitions over integers and rationals.  Randomness is
modelled by an oracle argument, media probing and extraction by explicit
outcome arguments, and raised exceptions by Except / Option. -/

/-! ## Background window selector (video_creation/background.py) -/

/-- Safety margin and maximum valid start time computed by
get_start_and_end_times (background.py lines 74-80): the margin is
min(2, L // 10) and the maximum start is L - vl - margin, falling back to
max(0, L - vl) when that value is negative.  Here vl is the validated
(already clamped) video length used by the function and L the clip length. -/
def maxValidStart (vl lengthOfClip : ℤ) : ℤ :=
  if lengthOfClip - vl - min 2 (Int.fdiv lengthOfClip 10) < 0 then
    max 0 (lengthOfClip - vl)
  else lengthOfClip - vl - min 2 (Int.fdiv lengthOfClip 10)

/-- Model of random.randint(0, m) with inclusive bounds: the oracle r is
reduced to a value in [0, m]. -/
def randint0 (m : ℤ) (r : ℕ) : ℤ := (r : ℤ) % (m + 1)

/-- The start time chosen in the non-degenerate branch of
get_start_and_end_times (background.py lines 84-87): 0 when the maximum
valid start is not positive, otherwise randint(0, max_start_time). -/
def chosenStart (vl lengthOfClip : ℤ) (r : ℕ) : ℤ :=
  if maxValidStart vl lengthOfClip ≤ 0 then 0
  else randint0 (maxValidStart vl lengthOfClip) r

/-- get_start_and_end_times (background.py lines 42-107), after both
arguments have been converted to integer seconds.  r is the randomness
oracle; Except.error models the two raise statements (source of zero or
negative length, and the final sanity-check failure). -/
def get_start_and_end_times (videoLength lengthOfClip : ℤ) (r : ℕ) :
    Except Unit (ℤ × ℤ) :=
  let vl : ℤ := if videoLength ≤ 0 then 1 else videoLength
  if lengthOfClip ≤ vl then
    (if 0 < lengthOfClip then Except.ok (0, lengthOfClip) else Except.error ())
  else
    let startTime := chosenStart vl lengthOfClip r
    let endTime := startTime + vl
    let p : ℤ × ℤ :=
      if lengthOfClip < endTime then (max 0 (lengthOfClip - vl), lengthOfClip)
      else (startTime, endTime)
    if p.2 ≤ p.1 then
      (if min vl lengthOfClip ≤ 0 then Except.error ()
       else Except.ok (0, min vl lengthOfClip))
    else Except.ok p

theorem maxValidStart_nonneg {vl L : ℤ} (h1 : 1 ≤ vl) (h2 : vl < L) :
    0 ≤ maxValidStart vl L := by
  unfold maxValidStart
  split
  · exact le_max_left 0 _
  · omega

theorem maxValidStart_le {vl L : ℤ} (h1 : 1 ≤ vl) (h2 : vl < L) :
    maxValidStart vl L ≤ L - vl := by
  have hfd : 0 ≤ Int.fdiv L 10 := by
    have hL : (0 : ℤ) ≤ L := by omega
    exact Int.fdiv_nonneg hL (by norm_num)
  have hmin : 0 ≤ min 2 (Int.fdiv L 10) := le_min (by norm_num) hfd
  unfold maxValidStart
  split
  · exact max_le (by omega) le_rfl
  · omega

theorem chosenStart_bounds {vl L : ℤ} (r : ℕ) (h1 : 1 ≤ vl) (h2 : vl < L) :
    0 ≤ chosenStart vl L r ∧ chosenStart vl L r ≤ maxValidStart vl L := by
  have hm := maxValidStart_nonneg h1 h2
  unfold chosenStart
  split
  · constructor <;> omega
  · rename_i hpos
    push_neg at hpos
    have hlt : (0 : ℤ) < maxValidStart vl L + 1 := by omega
    unfold randint0
    constructor
    · exact Int.emod_nonneg _ (by omega)
    · have := Int.emod_lt_of_pos (r : ℤ) hlt
      omega

/-- In the non-degenerate case (validated duration D with 1 ≤ D < L) the
function returns ok (s, s + D) with s the chosen start. -/
theorem gset_eq {D L : ℤ} (r : ℕ) (h1 : 1 ≤ D) (h2 : D < L) :
    get_start_and_end_times D L r
      = Except.ok (chosenStart D L r, chosenStart D L r + D) := by
  have hb := @chosenStart_bounds D L r h1 h2
  have hle := @maxValidStart_le D L h1 h2
  unfold get_start_and_end_times
  have hvl : ¬ (D ≤ 0) := by omega
  simp only [if_neg hvl]
  have hdeg : ¬ (L ≤ D) := by omega
  simp only [if_neg hdeg]
  have hclip : ¬ (L < chosenStart D L r + D) := by omega
  simp only [if_neg hclip]
  have hsane : ¬ (chosenStart D L r + D ≤ chosenStart D L r) := by omega
  simp only [if_neg hsane]

/-- C1 counterexample: the call with requested duration D = 0 and source
duration L = 5 returns the window (0, 1); here L > D, yet the window
length 1 - 0 differs from D = 0, because the code first clamps a
non-positive duration to 1 (background.py lines 59-61). -/
theorem c1_counterexample :
    get_start_and_end_times 0 5 0 = Except.ok (0, 1)
    ∧ (0 : ℤ) < 5 ∧ (1 : ℤ) - 0 ≠ 0 := by
  refine ⟨rfl, by norm_num, by norm_num⟩

/-- C1 (amended): for every call of get_start_and_end_times with a positive
requested duration D (for D ≤ 0 the code clamps the duration to 1, so the
window length is 1 rather than D) that returns without raising, the
returned window satisfies start < end and end ≤ L; whenever L > D the
window length is exactly D, and in the degenerate case L ≤ D with L > 0
the whole source (0, L) is returned. -/
theorem c1_selected_window (D L : ℤ) (r : ℕ) (s e : ℤ) (hD : 1 ≤ D)
    (h : get_start_and_end_times D L r = Except.ok (s, e)) :
    s < e ∧ e ≤ L ∧ (D < L → e - s = D) ∧ (L ≤ D → 0 < L → s = 0 ∧ e = L) := by
  rcases lt_or_le D L with hlt | hle
  · rw [gset_eq r hD hlt] at h
    have hb := @chosenStart_bounds D L r hD hlt
    have hml := maxValidStart_le hD hlt
    simp only [Except.ok.injEq, Prod.mk.injEq] at h
    obtain ⟨hs, he⟩ := h
    subst hs
    subst he
    exact ⟨by omega, by omega, fun _ => by omega, fun h1 _ => by omega⟩
  · have hvl : ¬ (D ≤ 0) := by omega
    unfold get_start_and_end_times at h
    simp only [if_neg hvl, if_pos hle] at h
    by_cases hL : 0 < L
    · simp only [if_pos hL, Except.ok.injEq, Prod.mk.injEq] at h
      obtain ⟨hs, he⟩ := h
      subst hs
      subst he
      exact ⟨hL, le_refl L, fun hc => absurd hc (by omega), fun _ _ => ⟨rfl, rfl⟩⟩
    · simp only [if_neg hL] at h
      exact absurd h (by simp)

/-- Witness for C1 at D = 30, L = 100, r = 0: the call returns (0, 30). -/
theorem c1_witness :
    ((1 : ℤ) ≤ 30 ∧ get_start_and_end_times 30 100 0 = Except.ok (0, 30))
    ∧ ((0 : ℤ) < 30 ∧ (30 : ℤ) ≤ 100 ∧ ((30 : ℤ) < 100 → (30 : ℤ) - 0 = 30)
        ∧ ((100 : ℤ) ≤ 30 → (0 : ℤ) < 100 → (0 : ℤ) = 0 ∧ (30 : ℤ) = 100)) :=
  ⟨⟨by norm_num, rfl⟩, c1_selected_window 30 100 0 0 30 (by norm_num) rfl⟩

/-- C5: for L > D ≥ 1 the maximum valid start is L - D - min(2, L // 10)
with fallback max(0, L - D) when that is negative; the selected window is
(s, s + D) with s in [0, maxValidStart], and every value in that range is
attained for some randomness, matching a uniform draw from the range. -/
theorem c5_max_start_selection (D L : ℤ) (r : ℕ) (hD : 1 ≤ D) (hL : D < L) :
    maxValidStart D L
        = (if L - D - min 2 (Int.fdiv L 10) < 0 then max 0 (L - D)
           else L - D - min 2 (Int.fdiv L 10))
    ∧ (∃ s, get_start_and_end_times D L r = Except.ok (s, s + D)
        ∧ 0 ≤ s ∧ s ≤ maxValidStart D L)
    ∧ (∀ v : ℤ, 0 ≤ v → v ≤ maxValidStart D L →
        ∃ r2 : ℕ, get_start_and_end_times D L r2 = Except.ok (v, v + D)) := by
  refine ⟨rfl,
    ⟨chosenStart D L r, gset_eq r hD hL, (chosenStart_bounds r hD hL).1,
      (chosenStart_bounds r hD hL).2⟩, ?_⟩
  intro v hv0 hvm
  refine ⟨v.toNat, ?_⟩
  rw [gset_eq v.toNat hD hL]
  have hcs : chosenStart D L v.toNat = v := by
    unfold chosenStart
    split
    · omega
    · unfold randint0
      rw [Int.toNat_of_nonneg hv0]
      exact Int.emod_eq_of_lt hv0 (by omega)
  rw [hcs]

/-- Witness for C5 at the spec scenario L = 100, D = 30: the margin is 2,
the maximum valid start is 68, and the chosen window is (s, s + 30). -/
theorem c5_witness :
    ((1 : ℤ) ≤ 30 ∧ (30 : ℤ) < 100) ∧ maxValidStart 30 100 = 68
    ∧ (∃ s, get_start_and_end_times 30 100 0 = Except.ok (s, s + 30)
        ∧ 0 ≤ s ∧ s ≤ maxValidStart 30 100) :=
  ⟨⟨by norm_num, by norm_num⟩, rfl,
    (c5_max_start_selection 30 100 0 (by norm_num) (by norm_num)).2.1⟩

/-! ## Speech synthesis accounting (TTS/engine_wrapper.py) -/

/-- Running accumulator of TTSEngine: self.length and
self.last_clip_length (engine_wrapper.py lines 50-51).  Durations are
modelled as rationals. -/
structure TTSState where
  length : ℚ
  last_clip_length : ℚ
deriving DecidableEq

/-- Outcome of one external duration-measurement attempt: either a probed
duration or a raised/propagated failure. -/
inductive ProbeResult where
  | ok (d : ℚ)
  | failed
deriving DecidableEq

/-- Three-tier duration measurement of call_tts (engine_wrapper.py lines
154-186): FFprobe first, then MoviePy, then an estimate from the word
count (len(text.split())) at 150 words per minute, floored at 1 second
by max(1, estimated_duration). -/
def measure_duration (tier1 tier2 : ProbeResult) (wordCount : ℕ) : ℚ :=
  match tier1 with
  | .ok d => d
  | .failed =>
    match tier2 with
    | .ok d => d
    | .failed => max 1 ((wordCount : ℚ) / 150 * 60)

/-- Duration bookkeeping at the end of call_tts (engine_wrapper.py lines
188-196): a positive measured duration updates last_clip_length and adds
to length; otherwise length is untouched and last_clip_length is reset
to 0. -/
def call_tts_update (s : TTSState) (d : ℚ) : TTSState :=
  if 0 < d then ⟨s.length + d, d⟩ else ⟨s.length, 0⟩

/-- call_tts (engine_wrapper.py lines 147-196) restricted to its duration
accounting: measure the clip just synthesized, then update the state. -/
def call_tts (s : TTSState) (tier1 tier2 : ProbeResult) (wordCount : ℕ) :
    TTSState :=
  call_tts_update s (measure_duration tier1 tier2 wordCount)

/-- Non-story comments loop of TTSEngine.run (engine_wrapper.py lines
90-101 and the return at 104): i is the enumerate index, s the running
state, and the list holds each remaining comment's measured clip
duration.  At each iteration the budget check fires when length >
max_length and idx > 1, subtracting the last clip length and returning
idx - 1; otherwise the comment is synthesized and its duration committed.
On normal exhaustion the returned index is the last enumerate value
(i - 1 in the recursion, with ℕ subtraction making the empty case 0). -/
def run_comments (maxLen : ℚ) : ℕ → TTSState → List ℚ → ℚ × ℕ
  | i, s, [] => (s.length, i - 1)
  | i, s, d :: rest =>
    if maxLen < s.length ∧ 1 < i then (s.length - s.last_clip_length, i - 1)
    else run_comments maxLen (i + 1) (call_tts_update s d) rest

/-- TTSEngine.run in non-story mode (engine_wrapper.py lines 70-104): the
title is synthesized first via call_tts, independent of the budget, then
the comments loop runs; returns (self.length, idx). -/
def tts_run (maxLen titleDur : ℚ) (ds : List ℚ) : ℚ × ℕ :=
  run_comments maxLen 0 (call_tts_update ⟨0, 0⟩ titleDur) ds

/-- C3 counterexample: with comment durations [5, 5, 5, 40], a
zero-duration title and max length 10, the run does not return last index
1: the budget check only fires at the top of iteration 3, after comment 2
was already synthesized, so the returned index is 3 - 1 = 2. -/
theorem c3_counterexample : tts_run 10 0 [5, 5, 5, 40] ≠ (10, 1) := by
  norm_num [tts_run, run_comments, call_tts_update]

/-- C3 (amended): with comment durations [5, 5, 5, 40], a zero-duration
title and max length 10, rollback fires at iteration 3 (total 15 > 10,
idx 3 > 1), subtracts comment 2's duration and returns total 10 with last
index 2; the total counts only comments 0 and 1 even though the returned
index also names comment 2, whose file was already produced. -/
theorem c3_rollback_scenario :
    tts_run 10 0 [5, 5, 5, 40] = (10, 2)
    ∧ ([(5 : ℚ), 5, 5, 40].take 2).sum = 10 := by
  refine ⟨by norm_num [tts_run, run_comments, call_tts_update], by norm_num⟩

/-- State after committing a list of measured durations one by one. -/
def foldState (s : TTSState) (ds : List ℚ) : TTSState :=
  ds.foldl call_tts_update s

theorem foldState_nil (s : TTSState) : foldState s [] = s := rfl

theorem foldState_cons (s : TTSState) (d : ℚ) (ds : List ℚ) :
    foldState s (d :: ds) = foldState (call_tts_update s d) ds := rfl

/-- Committing positive durations adds their sum to the running length. -/
theorem foldState_length (s : TTSState) (ds : List ℚ)
    (h : ∀ x ∈ ds, 0 < x) :
    (foldState s ds).length = s.length + ds.sum := by
  induction ds generalizing s with
  | nil => simp [foldState]
  | cons d rest ih =>
    have hd : 0 < d := h d (List.mem_cons_self d rest)
    rw [foldState_cons, ih _ (fun x hx => h x (List.mem_cons_of_mem d hx))]
    simp [call_tts_update, if_pos hd, List.sum_cons]
    ring

/-- After committing a non-empty list of positive durations, the last clip
length is the last committed duration. -/
theorem foldState_last (s : TTSState) (ds : List ℚ) (hne : ds ≠ [])
    (h : ∀ x ∈ ds, 0 < x) :
    (foldState s ds).last_clip_length = ds.getLast hne := by
  induction ds generalizing s with
  | nil => exact absurd rfl hne
  | cons d rest ih =>
    rcases List.eq_nil_or_concat' rest with hr | _
    · subst hr
      have hd : 0 < d := h d (List.mem_cons_self d [])
      simp [foldState, call_tts_update, if_pos hd]
    · rcases List.exists_cons_of_ne_nil (l := rest) (by
        rename_i hrr
        obtain ⟨l', a, rfl⟩ := hrr
        simp) with ⟨a, l, hal⟩
      subst hal
      rw [foldState_cons, ih _ (by simp) (fun x hx => h x (List.mem_cons_of_mem d hx))]
      simp [List.getLast_cons]

theorem run_comments_nil (maxLen : ℚ) (i : ℕ) (s : TTSState) :
    run_comments maxLen i s [] = (s.length, i - 1) := rfl

theorem run_comments_cons (maxLen : ℚ) (i : ℕ) (s : TTSState) (d : ℚ)
    (rest : List ℚ) :
    run_comments maxLen i s (d :: rest)
      = if maxLen < s.length ∧ 1 < i then
          (s.length - s.last_clip_length, i - 1)
        else run_comments maxLen (i + 1) (call_tts_update s d) rest := rfl

/-- Running the loop over pre ++ suf behaves like running suf from the
state after pre, provided the budget check fires at no step inside pre. -/
theorem run_comments_append (maxLen : ℚ) (pre suf : List ℚ) (i : ℕ)
    (s : TTSState)
    (hq : ∀ j, j < pre.length →
      ¬ (maxLen < (foldState s (pre.take j)).length ∧ 1 < i + j)) :
    run_comments maxLen i s (pre ++ suf)
      = run_comments maxLen (i + pre.length) (foldState s pre) suf := by
  induction pre generalizing i s with
  | nil => simp [foldState]
  | cons d rest ih =>
    have h0 := hq 0 (by simp)
    simp only [List.take_zero, foldState_nil, Nat.add_zero] at h0
    rw [List.cons_append, run_comments_cons, if_neg h0, foldState_cons]
    have := ih (i + 1) (call_tts_update s d) ?_
    · rw [this]
      have hidx : i + 1 + rest.length = i + (d :: rest).length := by
        simp only [List.length_cons]
        omega
      rw [hidx]
    · intro j hj
      have := hq (j + 1) (by simpa using Nat.succ_lt_succ hj)
      simpa [List.take_succ_cons, foldState_cons, Nat.add_assoc,
        Nat.add_comm 1 j] using this

/-- One firing step: when the budget check holds at the head of the list,
the loop stops, subtracts the last clip length and returns index i - 1. -/
theorem run_comments_fire (maxLen : ℚ) (i : ℕ) (s : TTSState) (d : ℚ)
    (rest : List ℚ) (h1 : maxLen < s.length) (h2 : 1 < i) :
    run_comments maxLen i s (d :: rest)
      = (s.length - s.last_clip_length, i - 1) := by
  rw [run_comments_cons, if_pos ⟨h1, h2⟩]

/-- C2 counterexample: with durations [6, 6, 1], zero title and budget 10,
rollback fires at iteration 2 and the run returns (6, 1); the output set
named by the returned last index 1 is comments 0 and 1, whose durations
sum to 12, not 6: the rolled-back comment 1 is still covered by the
returned index even though its duration was subtracted. -/
theorem c2_counterexample :
    tts_run 10 0 [6, 6, 1] = (6, 1)
    ∧ ([(6 : ℚ), 6, 1].take (1 + 1)).sum ≠ 6 := by
  constructor
  · norm_num [tts_run, run_comments, call_tts_update]
  · norm_num

/-- C2 (amended): when the budget rollback fires at the check preceding
comment i (comments 0 .. i-1 synthesized, each with positive measured
duration), exactly the last synthesized comment's duration is subtracted
and the returned index is i - 1 — the index of that rolled-back comment
itself; the returned total equals the initial total plus the durations of
comments 0 .. i-2, i.e. of the committed comments, whose indices lie
strictly below the returned index. -/
theorem c2_rollback_total (maxLen t0 l0 : ℚ) (pre : List ℚ) (d : ℚ)
    (rest : List ℚ) (hpos : ∀ x ∈ pre, 0 < x) (hlen : 2 ≤ pre.length)
    (hfire : maxLen < t0 + pre.sum)
    (hquiet : ∀ j, 1 < j → j < pre.length → t0 + (pre.take j).sum ≤ maxLen) :
    run_comments maxLen 0 ⟨t0, l0⟩ (pre ++ d :: rest)
      = (t0 + pre.dropLast.sum, pre.length - 1) := by
  have hne : pre ≠ [] := by
    intro h
    rw [h] at hlen
    simp at hlen
  have happ := run_comments_append maxLen pre (d :: rest) 0 ⟨t0, l0⟩ ?_
  · rw [happ]
    have hlength := foldState_length ⟨t0, l0⟩ pre hpos
    have hlast := foldState_last ⟨t0, l0⟩ pre hne hpos
    rw [run_comments_fire _ _ _ _ _ (by rw [hlength]; exact hfire) (by omega)]
    rw [hlength, hlast]
    have hsplit : pre.dropLast.sum + pre.getLast hne = pre.sum := by
      conv_rhs => rw [← List.dropLast_append_getLast hne]
      rw [List.sum_append]
      simp
    refine Prod.ext ?_ (by omega)
    show t0 + pre.sum - pre.getLast hne = t0 + pre.dropLast.sum
    rw [← hsplit]
    ring
  · intro j hj
    rintro ⟨hlt, hgt⟩
    have hposj : ∀ x ∈ pre.take j, 0 < x := fun x hx =>
      hpos x (List.mem_of_mem_take hx)
    rw [foldState_length _ _ hposj] at hlt
    have hj2 : 1 < j := by omega
    exact absurd hlt (not_lt.mpr (hquiet j hj2 hj))

/-- Witness for C2 at budget 10, zero title, committed prefix [6, 6] and
following comment of duration 1: rollback returns total 6 and index 1. -/
theorem c2_witness :
    ((∀ x ∈ [(6 : ℚ), 6], 0 < x) ∧ 2 ≤ [(6 : ℚ), 6].length
      ∧ (10 : ℚ) < 0 + [(6 : ℚ), 6].sum)
    ∧ run_comments 10 0 ⟨0, 0⟩ ([(6 : ℚ), 6] ++ 1 :: [])
        = (0 + [(6 : ℚ), 6].dropLast.sum, [(6 : ℚ), 6].length - 1) :=
  ⟨⟨by norm_num [List.forall_mem_cons], by norm_num, by norm_num⟩,
    c2_rollback_total 10 0 0 [6, 6] 1 [] (by norm_num [List.forall_mem_cons])
      (by norm_num) (by norm_num)
      (by
        intro j h1 h2
        simp only [List.length_cons, List.length_nil] at h2
        omega)⟩

/-- Shifting the initial running length by t shifts both the budget bound
and the returned total by t, leaving the returned index unchanged. -/
theorem run_comments_shift (maxLen t : ℚ) (ds : List ℚ) :
    ∀ (i : ℕ) (x l : ℚ),
      run_comments maxLen i ⟨x + t, l⟩ ds
        = ((run_comments (maxLen - t) i ⟨x, l⟩ ds).1 + t,
           (run_comments (maxLen - t) i ⟨x, l⟩ ds).2) := by
  induction ds with
  | nil =>
    intro i x l
    simp [run_comments_nil]
  | cons d rest ih =>
    intro i x l
    rw [run_comments_cons, run_comments_cons]
    by_cases hc : maxLen - t < x ∧ 1 < i
    · have hc2 : maxLen < x + t ∧ 1 < i := ⟨by linarith [hc.1], hc.2⟩
      rw [if_pos hc2, if_pos hc]
      refine Prod.ext ?_ rfl
      show x + t - l = x - l + t
      ring
    · have hc2 : ¬ (maxLen < x + t ∧ 1 < i) := by
        intro h
        exact hc ⟨by linarith [h.1], h.2⟩
      rw [if_neg hc2, if_neg hc]
      unfold call_tts_update
      by_cases hd : 0 < d
      · rw [if_pos hd, if_pos hd]
        have hx : x + t + d = (x + d) + t := by ring
        show run_comments maxLen (i + 1) ⟨x + t + d, d⟩ rest = _
        rw [hx]
        exact ih (i + 1) (x + d) d
      · rw [if_neg hd, if_neg hd]
        exact ih (i + 1) x 0

/-- C9: the title's measured clip duration t is committed to the same
running total that the comment-loop budget check compares against
max_length: a non-story run with title duration t > 0 coincides with the
comments-only loop run against the reduced budget max_length - t, with t
added back to the returned total, so the budget covers title plus
comments and the returned total includes the title. -/
theorem c9_title_in_budget (maxLen t : ℚ) (ds : List ℚ) (ht : 0 < t) :
    tts_run maxLen t ds
      = ((run_comments (maxLen - t) 0 ⟨0, t⟩ ds).1 + t,
         (run_comments (maxLen - t) 0 ⟨0, t⟩ ds).2) := by
  unfold tts_run
  have hinit : call_tts_update ⟨0, 0⟩ t = ⟨0 + t, t⟩ := by
    unfold call_tts_update
    rw [if_pos ht]
  rw [hinit]
  exact run_comments_shift maxLen t ds 0 0 t

/-- Witness for C9 with title duration 1, budget 50 and comments [2, 3]. -/
theorem c9_witness :
    (0 : ℚ) < 1
    ∧ tts_run 50 1 [2, 3]
        = ((run_comments (50 - 1) 0 ⟨0, 1⟩ [2, 3]).1 + 1,
           (run_comments (50 - 1) 0 ⟨0, 1⟩ [2, 3]).2) :=
  ⟨by norm_num, c9_title_in_budget 50 1 [2, 3] (by norm_num)⟩

/-- C6: when both the container probe (FFprobe) and the full decode
(MoviePy) fail, the duration is the word-count estimate at 150 words per
minute floored at 1 second; a positive measured duration updates both the
running total and the last clip length, while a measured duration of 0
leaves the total unchanged and resets the last clip length to 0. -/
theorem c6_measurement_tiers (s : TTSState) (wc : ℕ) (d : ℚ) :
    measure_duration .failed .failed wc = max 1 ((wc : ℚ) / 150 * 60)
    ∧ call_tts s .failed .failed wc
        = call_tts_update s (max 1 ((wc : ℚ) / 150 * 60))
    ∧ (0 < d → call_tts_update s d = ⟨s.length + d, d⟩)
    ∧ call_tts_update s 0 = ⟨s.length, 0⟩ := by
  refine ⟨rfl, rfl, fun hd => ?_, ?_⟩
  · unfold call_tts_update
    rw [if_pos hd]
  · unfold call_tts_update
    rw [if_neg (by norm_num)]

/-- Witness for C6: a 2-second clip updates the state ⟨3, 1⟩ to ⟨5, 2⟩,
and with 300 words the double-failure estimate is max 1 (300/150*60). -/
theorem c6_witness :
    ((0 : ℚ) < 2 ∧ call_tts_update ⟨3, 1⟩ 2 = ⟨3 + 2, 2⟩)
    ∧ measure_duration .failed .failed 300 = max 1 ((300 : ℚ) / 150 * 60) :=
  ⟨⟨by norm_num, (c6_measurement_tiers ⟨3, 1⟩ 300 2).2.2.1 (by norm_num)⟩,
    (c6_measurement_tiers ⟨3, 1⟩ 300 2).1⟩

/-! ## Long-text splitter (TTSEngine.split_post, engine_wrapper.py 106-145)

The split regex " *(((.|\n){0,max_chars})(\.|.$))" is modelled by a
backtracking matcher specialised to this pattern: greedy leading spaces,
then a greedy body of up to max_chars arbitrary characters, then a
terminator that is either a literal period or any non-newline character
at end of string (where $ also matches just before a trailing newline). -/

/-- Terminator (\.|.$) of the split regex tried at the current suffix:
returns the number of characters it consumes (always 1) on success.  A
period always matches via the first alternative; otherwise any
non-newline character matches when the remainder ends the string, in the
Python sense that $ also matches just before a final newline. -/
def termEnd : List Char → Option ℕ
  | [] => none
  | c :: rest =>
    if c == '.' then some 1
    else if !(c == '\n') && (rest.isEmpty || rest == ['\n']) then some 1
    else none

/-- Greedy body (.|\n){0,b} followed by the terminator: returns the total
consumed length (body + 1) for the longest body length that lets the
terminator match, mirroring the backtracking preference for longer
bodies. -/
def bodyScan : ℕ → List Char → Option ℕ
  | _, [] => none
  | 0, c :: rest => (termEnd (c :: rest)).map fun _ => 1
  | b + 1, c :: rest =>
    match bodyScan b rest with
    | some n => some (n + 1)
    | none => (termEnd (c :: rest)).map fun _ => 1

/-- Length of the maximal run of characters satisfying p. -/
def countLeading (p : Char → Bool) : List Char → ℕ
  | [] => 0
  | c :: rest => if p c then countLeading p rest + 1 else 0

/-- Greedy leading-space loop " *": tries sp spaces first, then fewer,
mirroring the star's backtracking. -/
def spTry (maxChars : ℕ) : ℕ → List Char → Option ℕ
  | 0, rem => bodyScan maxChars rem
  | sp + 1, rem =>
    match bodyScan maxChars (rem.drop (sp + 1)) with
    | some n => some (sp + 1 + n)
    | none => spTry maxChars sp rem

/-- Whole-pattern match attempt at the current position: number of
characters consumed by " *(((.|\n){0,maxChars})(\.|.$))" on success. -/
def reMatchAt (maxChars : ℕ) (rem : List Char) : Option ℕ :=
  spTry maxChars (countLeading (fun c => c == ' ') rem) rem

/-- re.finditer scan: at each position try the pattern; on a match (which
always consumes at least one character) emit it and continue after its
end, otherwise advance one position.  Fuel bounds the scan length. -/
def finditerGo (maxChars : ℕ) : ℕ → List Char → List (List Char)
  | 0, _ => []
  | _ + 1, [] => []
  | fuel + 1, c :: rest =>
    match reMatchAt maxChars (c :: rest) with
    | some n => (c :: rest).take n :: finditerGo maxChars fuel ((c :: rest).drop n)
    | none => finditerGo maxChars fuel rest

/-- Python str.isspace / strip whitespace class. -/
def isPyWS (c : Char) : Bool :=
  c == ' ' || c == '\t' || c == '\n' || c == '\r' || c == '\x0b' || c == '\x0c'

/-- Python str.strip(): drop whitespace from both ends. -/
def pyStrip (s : List Char) : List Char :=
  ((s.dropWhile isPyWS).reverse.dropWhile isPyWS).reverse

/-- split_text computed by split_post (engine_wrapper.py lines 108-113):
the stripped groups of every regex match, in order. -/
def split_text (maxChars : ℕ) (text : List Char) : List (List Char) :=
  (finditerGo maxChars (text.length + 1) text).map pyStrip

/-- One line of the concat list file written by split_post: a chunk file
idx-idz.part.mp3, or the shared silence.mp3. -/
inductive ConcatEntry where
  | chunk (i : ℕ)
  | silence
deriving DecidableEq

/-- Final content of list.txt as written by split_post (engine_wrapper.py
lines 126-130): the file is rewritten at every synthesized chunk, and
each rewrite lists every chunk index 0 .. k-1 (k = len(split_text))
followed by a single silence line after the loop, so this is also the
list consumed by the last ffmpeg concat run that produces the output. -/
def list_txt (k : ℕ) : List ConcatEntry :=
  (List.range k).map ConcatEntry.chunk ++ [ConcatEntry.silence]

def isSilence : ConcatEntry → Bool
  | .silence => true
  | .chunk _ => false

/-- Duration of the ffmpeg concat output: the sum of the durations of the
listed files, with d i the duration of chunk i and sil the configured
silence duration. -/
def concat_duration (d : ℕ → ℚ) (sil : ℚ) (es : List ConcatEntry) : ℚ :=
  (es.map fun e => match e with | .chunk i => d i | .silence => sil).sum

/-- A 2800-character text (2800 periods, so that a terminator is always in
reach) splits into 6 chunks under max_chars = 500. -/
theorem split2800_length :
    (split_text 500 (List.replicate 2800 '.')).length = 6 := by
  have h : split_text 500 (List.replicate 2800 '.')
      = (finditerGo 500 2801 (List.replicate 2800 '.')).map pyStrip := by
    unfold split_text
    norm_num [List.length_replicate]
  rw [h, List.length_map]
  set_option maxRecDepth 8000 in decide

/-- The concat output duration for k chunks is the sum of the chunk
durations plus a single silence. -/
theorem concat_duration_list_txt (d : ℕ → ℚ) (sil : ℚ) (k : ℕ) :
    concat_duration d sil (list_txt k) = ((List.range k).map d).sum + sil := by
  unfold concat_duration list_txt
  rw [List.map_append, List.sum_append, List.map_map]
  have hcomp : ∀ i, ((fun e => match e with
      | ConcatEntry.chunk i => d i
      | ConcatEntry.silence => sil) ∘ ConcatEntry.chunk) i = d i := fun i => rfl
  rw [funext hcomp]
  simp

/-- C4 counterexample: a 2800-character text with max_chars 500 splits
into 6 chunks, but the final concat list holds a single silence entry
after all the chunks, not 5 interleaved ones, so with unit chunk
durations and unit silence the output duration is 7, not 6 + 5. -/
theorem c4_counterexample :
    (split_text 500 (List.replicate 2800 '.')).length = 6
    ∧ (list_txt 6).countP (fun e => isSilence e) = 1
    ∧ concat_duration (fun _ => 1) 1 (list_txt 6) = 7
    ∧ ((7 : ℚ) ≠ 6 + 5 * 1) := by
  refine ⟨split2800_length, by decide, ?_, by norm_num⟩
  rw [concat_duration_list_txt]
  norm_num [List.range_succ]

/-- C4 (amended): split_post splits an oversized text into k chunks, but
the concat list it hands to ffmpeg holds exactly one fixed-duration
silence entry appended after all k chunk files rather than k - 1
interleaved ones, so the output duration is the sum of the k chunk
durations plus one silence duration; a 2800-character text with
max_chars = 500 still splits into 6 chunks. -/
theorem c4_single_trailing_silence (k : ℕ) (d : ℕ → ℚ) (sil : ℚ)
    (hk : 1 ≤ k) :
    (list_txt k).countP (fun e => isSilence e) = 1
    ∧ concat_duration d sil (list_txt k) = ((List.range k).map d).sum + sil
    ∧ (split_text 500 (List.replicate 2800 '.')).length = 6 := by
  refine ⟨?_, concat_duration_list_txt d sil k, split2800_length⟩
  simp [list_txt, List.countP_append, List.countP_map, isSilence,
    Function.comp, List.countP_cons]

/-- Witness for C4 at k = 6 with unit chunk durations and unit silence. -/
theorem c4_witness :
    1 ≤ 6
    ∧ ((list_txt 6).countP (fun e => isSilence e) = 1
        ∧ concat_duration (fun _ => (1 : ℚ)) 1 (list_txt 6)
            = ((List.range 6).map (fun _ => (1 : ℚ))).sum + 1
        ∧ (split_text 500 (List.replicate 2800 '.')).length = 6) :=
  ⟨by norm_num, c4_single_trailing_silence 6 (fun _ => 1) 1 (by norm_num)⟩

/-! ## Background chopping, audio branch (background.py lines 182-254) -/

/-- Python int() on a rational: truncation toward zero. -/
def pyInt (q : ℚ) : ℤ := if 0 ≤ q then ⌊q⌋ else ⌈q⌉

/-- Observable result of the audio branch of chop_background: no file
written, a silent placeholder of the given duration (ffmpeg anullsrc with
-t duration), or an extracted window (ffmpeg -ss start -t duration). -/
inductive AudioOutcome where
  | noFile
  | silent (dur : ℤ)
  | extracted (start dur : ℤ)
deriving DecidableEq

def isExtracted : AudioOutcome → Bool
  | .extracted _ _ => true
  | _ => false

/-- Audio branch of chop_background (background.py lines 182-254).
Oracles: probed is the FFprobe duration of the source (none models a
probe or float-parse failure, which the outer except turns into the
silent fallback), extractOk whether the ffmpeg extraction run succeeds,
fileValid whether the produced file exists and is non-empty, r the
randomness for the window selection.  Every failure path after a
successful short-duration check ends in a silent placeholder of exactly
videoLength seconds. -/
def chop_background_audio (volume : ℚ) (videoLength : ℤ) (probed : Option ℚ)
    (extractOk fileValid : Bool) (r : ℕ) : AudioOutcome :=
  if volume = 0 then .noFile
  else
    match probed with
    | none => .silent videoLength
    | some dur =>
      if dur ≤ (videoLength : ℚ) + 2 then .silent videoLength
      else
        match get_start_and_end_times videoLength (pyInt dur) r with
        | .error _ => .silent videoLength
        | .ok (s, _) =>
          if extractOk then
            if fileValid then .extracted s videoLength
            else .silent videoLength
          else .silent videoLength

/-- C7 counterexample: with the probed duration exactly D + 2 (D = 10,
probe 12) the code takes the silent-placeholder branch, not the
extraction branch the claim's "less than D + 2" wording implies, because
the source test is audio_duration <= video_length + 2. -/
theorem c7_counterexample :
    ¬ ((12 : ℚ) < (10 : ℚ) + 2)
    ∧ chop_background_audio 1 10 (some 12) true true 0
        = AudioOutcome.silent 10
    ∧ isExtracted (chop_background_audio 1 10 (some 12) true true 0)
        = false := by
  have h : chop_background_audio 1 10 (some 12) true true 0
      = AudioOutcome.silent 10 := by
    unfold chop_background_audio
    norm_num
  refine ⟨by norm_num, h, by rw [h]; rfl⟩

/-- C7 (amended): in the audio branch of chop_background, volume 0 skips
producing any file; a probe failure yields a silent placeholder of D
seconds; a probed duration of at most D + 2 (boundary included, the code
tests duration <= D + 2) yields a silent placeholder of exactly D
seconds; otherwise a window is selected and D seconds from its start are
extracted, and if the extraction run fails or the produced file is empty
or missing, a silent placeholder of duration D is produced as fallback. -/
theorem c7_audio_paths (volume : ℚ) (D : ℤ) (probed : Option ℚ)
    (eo fv : Bool) (r : ℕ) (hD : 1 ≤ D) :
    (volume = 0 → chop_background_audio volume D probed eo fv r
        = AudioOutcome.noFile)
    ∧ (volume ≠ 0 → probed = none →
        chop_background_audio volume D probed eo fv r
          = AudioOutcome.silent D)
    ∧ (volume ≠ 0 → ∀ L, probed = some L → L ≤ (D : ℚ) + 2 →
        chop_background_audio volume D probed eo fv r
          = AudioOutcome.silent D)
    ∧ (volume ≠ 0 → ∀ L, probed = some L → (D : ℚ) + 2 < L →
        eo = true → fv = true →
        ∃ s, chop_background_audio volume D probed eo fv r
            = AudioOutcome.extracted s D ∧ 0 ≤ s ∧ s + D ≤ pyInt L)
    ∧ (volume ≠ 0 → ∀ L, probed = some L → (D : ℚ) + 2 < L →
        (eo = false ∨ fv = false) →
        chop_background_audio volume D probed eo fv r
          = AudioOutcome.silent D) := by
  have hwin : ∀ L : ℚ, (D : ℚ) + 2 < L → D < pyInt L := by
    intro L hL
    have hL0 : (0 : ℚ) ≤ L := by
      have : (0 : ℚ) ≤ (D : ℚ) + 2 := by
        have : (1 : ℚ) ≤ (D : ℚ) := by exact_mod_cast hD
        linarith
      linarith
    unfold pyInt
    rw [if_pos hL0]
    have : ((D : ℚ) + 2 : ℚ) = ((D + 2 : ℤ) : ℚ) := by push_cast; ring
    rw [this] at hL
    have := Int.le_floor.mpr (le_of_lt hL)
    omega
  refine ⟨fun hv => ?_, fun hv hp => ?_, fun hv L hp hle => ?_,
    fun hv L hp hgt heo hfv => ?_, fun hv L hp hgt hbad => ?_⟩
  · unfold chop_background_audio
    rw [if_pos hv]
  · unfold chop_background_audio
    rw [if_neg hv, hp]
  · unfold chop_background_audio
    rw [if_neg hv, hp]
    simp only [if_pos hle]
  · have hfl := hwin L hgt
    have hok := gset_eq (D := D) (L := pyInt L) r hD hfl
    refine ⟨chosenStart D (pyInt L) r, ?_, ?_, ?_⟩
    · unfold chop_background_audio
      rw [if_neg hv, hp]
      simp only [if_neg (not_le.mpr hgt)]
      rw [hok, heo, hfv]
      simp
    · exact (chosenStart_bounds r hD hfl).1
    · have h1 := (chosenStart_bounds r hD hfl).2
      have h2 := maxValidStart_le hD hfl
      omega
  · have hfl := hwin L hgt
    have hok := gset_eq (D := D) (L := pyInt L) r hD hfl
    unfold chop_background_audio
    rw [if_neg hv, hp]
    simp only [if_neg (not_le.mpr hgt)]
    rw [hok]
    rcases hbad with hbad | hbad
    · rw [hbad]
      simp
    · rw [hbad]
      by_cases heo : eo = true
      · rw [heo]
        simp
      · have : eo = false := by
          cases eo
          · rfl
          · exact absurd rfl heo
        rw [this]
        simp

/-- Witness for C7 at volume 1, D = 10, probed duration 20 with a
successful extraction: the outcome is an extracted window. -/
theorem c7_witness :
    ((1 : ℤ) ≤ 10 ∧ (1 : ℚ) ≠ 0 ∧ (10 : ℚ) + 2 < 20)
    ∧ (∃ s, chop_background_audio 1 10 (some 20) true true 0
        = AudioOutcome.extracted s 10 ∧ 0 ≤ s ∧ s + 10 ≤ pyInt 20) :=
  ⟨⟨by norm_num, by norm_num, by norm_num⟩,
    (c7_audio_paths 1 10 (some 20) true true 0 (by norm_num)).2.2.2.1
      (by norm_num) 20 rfl (by norm_num) rfl rfl⟩

/-! ## Comment-text normalization (TTSEngine.add_periods, engine_wrapper.py
lines 53-68)

The URL regex
((http|https)\:\/\/)?[a-zA-Z0-9\.\/\?\:@\-_=#]+\.([a-zA-Z]){2,6}([a-zA-Z0-9\.\&\/\?\:@\-_=#])*
is modelled by a backtracking matcher specialised to this pattern;
str.replace and the word-boundary substitutions are modelled by direct
left-to-right scans.  Word characters are the ASCII subset of Python's
\w, adequate for ASCII comment bodies. -/

/-- Character class [a-zA-Z0-9./?:@-_=#] of the URL regex's middle part. -/
def isUrlChar1 (c : Char) : Bool :=
  c.isAlpha || c.isDigit || c == '.' || c == '/' || c == '?' || c == ':'
    || c == '@' || c == '-' || c == '_' || c == '=' || c == '#'

/-- Character class [a-zA-Z0-9.&/?:@-_=#] of the URL regex's tail part. -/
def isUrlChar2 (c : Char) : Bool :=
  c.isAlpha || c.isDigit || c == '.' || c == '&' || c == '/' || c == '?'
    || c == ':' || c == '@' || c == '-' || c == '_' || c == '=' || c == '#'

/-- Backtracking loop for [class1]+ \. [a-zA-Z]{2,6} [class2]* : try the
middle part at length lenA (descending, greedy), require a literal
period, then at least two letters (of which min 6 are consumed by the
bounded repeat) and a greedy class2 tail; returns the consumed length. -/
def tryA (rem : List Char) : ℕ → Option ℕ
  | 0 => none
  | lenA + 1 =>
    match rem.drop (lenA + 1) with
    | '.' :: rest2 =>
      let lr := countLeading Char.isAlpha rest2
      if 2 ≤ lr then
        let lenL := min 6 lr
        some (lenA + 1 + 1 + lenL + countLeading isUrlChar2 (rest2.drop lenL))
      else tryA rem lenA
    | _ => tryA rem lenA

/-- Scheme-less part of the URL regex at the current position. -/
def tryTail (rem : List Char) : Option ℕ :=
  tryA rem (countLeading isUrlChar1 rem)

/-- Whole URL regex at the current position: the optional scheme group is
preferred present; if it matches but the rest fails, matching falls back
to the scheme-less attempt from the same position (the scheme characters
are all in class1). -/
def matchURL (rem : List Char) : Option ℕ :=
  let schemeTry :=
    if rem.take 7 == "http://".toList then (tryTail (rem.drop 7)).map (· + 7)
    else if rem.take 8 == "https://".toList then (tryTail (rem.drop 8)).map (· + 8)
    else none
  match schemeTry with
  | some n => some n
  | none => tryTail rem

/-- re.sub of the URL regex with replacement " ": leftmost scan, each
match replaced by one space, scanning resumes after the match. -/
def urlSubGo : ℕ → List Char → List Char
  | 0, rem => rem
  | _ + 1, [] => []
  | fuel + 1, c :: rest =>
    match matchURL (c :: rest) with
    | some n => ' ' :: urlSubGo fuel ((c :: rest).drop n)
    | none => c :: urlSubGo fuel rest

def urlSub (s : List Char) : List Char := urlSubGo (s.length + 1) s

/-- Python str.replace(pat, repl): left-to-right, non-overlapping. -/
def replaceGo (pat repl : List Char) : ℕ → List Char → List Char
  | 0, rem => rem
  | _ + 1, [] => []
  | fuel + 1, c :: rest =>
    if (c :: rest).take pat.length == pat then
      repl ++ replaceGo pat repl fuel ((c :: rest).drop pat.length)
    else c :: replaceGo pat repl fuel rest

def pyReplace (pat repl s : List Char) : List Char :=
  replaceGo pat repl (s.length + 1) s

/-- ASCII word characters of Python's \w. -/
def isWordChar (c : Char) : Bool := c.isAlpha || c.isDigit || c == '_'

/-- Word boundary \b before the match: start of string or a non-word
character just before. -/
def boundaryB (prev : Option Char) : Bool :=
  match prev with
  | none => true
  | some c => !(isWordChar c)

/-- Word boundary \b after the match: end of string or a non-word
character just after. -/
def boundaryA (after : List Char) : Bool :=
  match after with
  | [] => true
  | a :: _ => !(isWordChar a)

/-- re.sub of \b pat \b with a literal replacement: scanning tracks the
previous character of the original string for the left boundary and
resumes after each match. -/
def wordSubGo (pat repl : List Char) : ℕ → Option Char → List Char → List Char
  | 0, _, rem => rem
  | _ + 1, _, [] => []
  | fuel + 1, prev, c :: rest =>
    if (c :: rest).take pat.length == pat && boundaryB prev
        && boundaryA ((c :: rest).drop pat.length) then
      repl ++ wordSubGo pat repl fuel pat.getLast? ((c :: rest).drop pat.length)
    else c :: wordSubGo pat repl fuel (some c) rest

def wordSub (pat repl s : List Char) : List Char :=
  wordSubGo pat repl (s.length + 1) none s

/-- One comment body's pass through add_periods (engine_wrapper.py lines
57-68): strip URLs, newlines to ". ", expand AI and AGI, enforce a
trailing period — an empty body raises IndexError at comment_body[-1],
modelled by none — then collapse ". . .", ".. . ", ". . " and rewrite
period-quote-period. -/
def normalize_comment_body (b : List Char) : Option (List Char) :=
  let b1 := urlSub b
  let b2 := pyReplace ['\n'] ['.', ' '] b1
  let b3 := wordSub ['A', 'I'] ['A', '.', 'I'] b2
  let b4 := wordSub ['A', 'G', 'I'] ['A', '.', 'G', '.', 'I'] b3
  match b4.getLast? with
  | none => none
  | some c =>
    let b5 := if c == '.' then b4 else b4 ++ ['.']
    let b6 := pyReplace ['.', ' ', '.', ' ', '.'] ['.'] b5
    let b7 := pyReplace ['.', '.', ' ', '.', ' '] ['.'] b6
    let b8 := pyReplace ['.', ' ', '.', ' '] ['.'] b7
    some (pyReplace ['.', '"', '.'] ['"', '.'] b8)

/-- add_periods (engine_wrapper.py lines 53-68) over the ordered comment
bodies: each body is normalized in turn; the first raised IndexError
aborts the whole pass. -/
def add_periods : List (List Char) → Option (List (List Char))
  | [] => some []
  | b :: rest =>
    match normalize_comment_body b with
    | none => none
    | some nb =>
      match add_periods rest with
      | none => none
      | some nrest => some (nb :: nrest)

/-- No position of the text matches the URL regex. -/
def noURL : List Char → Bool
  | [] => true
  | c :: rest => (matchURL (c :: rest)).isNone && noURL rest

/-- Some position of the text starts with the literal pattern. -/
def hasSub (pat : List Char) : List Char → Bool
  | [] => false
  | c :: rest => ((c :: rest).take pat.length == pat) || hasSub pat rest

/-- Some position of the text matches \b pat \b, with prev the character
just before the current position. -/
def hasWordSub (pat : List Char) : Option Char → List Char → Bool
  | _, [] => false
  | prev, c :: rest =>
    ((c :: rest).take pat.length == pat && boundaryB prev
      && boundaryA ((c :: rest).drop pat.length))
    || hasWordSub pat (some c) rest

theorem urlSubGo_id (s : List Char) (h : noURL s = true) :
    ∀ fuel, urlSubGo fuel s = s := by
  induction s with
  | nil =>
    intro fuel
    cases fuel <;> rfl
  | cons c rest ih =>
    intro fuel
    unfold noURL at h
    rw [Bool.and_eq_true] at h
    cases fuel with
    | zero => rfl
    | succ n =>
      unfold urlSubGo
      rw [Option.isNone_iff_eq_none.mp h.1]
      rw [ih h.2 n]

theorem urlSub_id (s : List Char) (h : noURL s = true) : urlSub s = s :=
  urlSubGo_id s h (s.length + 1)

theorem replaceGo_id (pat repl s : List Char) (h : hasSub pat s = false) :
    ∀ fuel, replaceGo pat repl fuel s = s := by
  induction s with
  | nil =>
    intro fuel
    cases fuel <;> rfl
  | cons c rest ih =>
    intro fuel
    unfold hasSub at h
    rw [Bool.or_eq_false_iff] at h
    cases fuel with
    | zero => rfl
    | succ n =>
      unfold replaceGo
      rw [if_neg (by rw [h.1]; exact Bool.false_ne_true)]
      rw [ih h.2 n]

theorem pyReplace_id (pat repl s : List Char) (h : hasSub pat s = false) :
    pyReplace pat repl s = s :=
  replaceGo_id pat repl s h (s.length + 1)

theorem wordSubGo_id (pat repl : List Char) (s : List Char) :
    ∀ (prev : Option Char), hasWordSub pat prev s = false →
    ∀ fuel, wordSubGo pat repl fuel prev s = s := by
  induction s with
  | nil =>
    intro prev _ fuel
    cases fuel <;> rfl
  | cons c rest ih =>
    intro prev h fuel
    unfold hasWordSub at h
    rw [Bool.or_eq_false_iff] at h
    cases fuel with
    | zero => rfl
    | succ n =>
      unfold wordSubGo
      rw [if_neg (by rw [h.1]; exact Bool.false_ne_true)]
      rw [ih (some c) h.2 n]

theorem wordSub_id (pat repl s : List Char)
    (h : hasWordSub pat none s = false) : wordSub pat repl s = s :=
  wordSubGo_id pat repl s none h (s.length + 1)

/-- A text is fully normalized when no pass of the pipeline has anything
left to rewrite: no URL-regex match, no newline, no standalone AI or AGI
token, a trailing period, and none of the collapse patterns. -/
def fullyNormalized (y : List Char) : Bool :=
  noURL y && !(hasSub ['\n'] y)
    && !(hasWordSub ['A', 'I'] none y) && !(hasWordSub ['A', 'G', 'I'] none y)
    && (y.getLast? == some '.')
    && !(hasSub ['.', ' ', '.', ' ', '.'] y)
    && !(hasSub ['.', '.', ' ', '.', ' '] y)
    && !(hasSub ['.', ' ', '.', ' '] y)
    && !(hasSub ['.', '"', '.'] y)

/-- C8 counterexample: the pipeline is not idempotent.  Normalizing
"a. .  . b" yields "a. . b." (the single-pass ". . " collapse creates a
new ". . " occurrence behind the replacement), and normalizing that
output again collapses it further, to "a.b.". -/
theorem c8_counterexample :
    normalize_comment_body ['a', '.', ' ', '.', ' ', ' ', '.', ' ', 'b']
        = some ['a', '.', ' ', '.', ' ', 'b', '.']
    ∧ normalize_comment_body ['a', '.', ' ', '.', ' ', 'b', '.']
        = some ['a', '.', 'b', '.']
    ∧ ['a', '.', 'b', '.'] ≠ ['a', '.', ' ', '.', ' ', 'b', '.'] := by
  refine ⟨by decide, by decide, by decide⟩

/-- C8 (amended): normalizing already-normalized text is a no-op, where
normalized means no residual URL match, newline, AI/AGI token or
duplicate-punctuation pattern remains and the text ends with a period;
the pipeline itself is not idempotent, because its single-pass
punctuation collapse can leave (indeed create) residual patterns that a
second application rewrites further. -/
theorem c8_normalized_no_op (y : List Char) (h : fullyNormalized y = true) :
    normalize_comment_body y = some y := by
  unfold fullyNormalized at h
  simp only [Bool.and_eq_true, Bool.not_eq_true', beq_iff_eq] at h
  obtain ⟨⟨⟨⟨⟨⟨⟨⟨h1, h2⟩, h3⟩, h4⟩, h5⟩, h6⟩, h7⟩, h8⟩, h9⟩
    := h
  simp only [normalize_comment_body]
  rw [urlSub_id y h1, pyReplace_id _ _ y h2, wordSub_id _ _ y h3,
    wordSub_id _ _ y h4, h5]
  simp only [beq_self_eq_true, if_true, pyReplace_id _ _ y h6,
    pyReplace_id _ _ y h7, pyReplace_id _ _ y h8, pyReplace_id _ _ y h9]

/-- Witness for C8: "ab." is fully normalized and maps to itself. -/
theorem c8_witness :
    fullyNormalized ['a', 'b', '.'] = true
    ∧ normalize_comment_body ['a', 'b', '.'] = some ['a', 'b', '.'] :=
  ⟨by decide, c8_normalized_no_op ['a', 'b', '.'] (by decide)⟩

/-- An empty comment body reaches the trailing-period check unchanged
(the earlier passes cannot create characters from nothing) and fails
there: comment_body[-1] raises IndexError, modelled by none. -/
theorem normalize_empty : normalize_comment_body [] = none := rfl

/-- C10: for every document containing a comment whose body is the empty
string, add_periods fails with the IndexError of the trailing-period
check instead of returning normalized text: normalization is total only
when every comment body is non-empty. -/
theorem c10_empty_body_fails (bodies : List (List Char))
    (h : [] ∈ bodies) : add_periods bodies = none := by
  induction bodies with
  | nil => cases h
  | cons b rest ih =>
    rcases List.mem_cons.mp h with hb | hb
    · unfold add_periods
      rw [← hb, normalize_empty]
    · unfold add_periods
      rw [ih hb]
      cases hnb : normalize_comment_body b <;> rfl

/-- Witness for C10 on the document with bodies ["hi", ""]. -/
theorem c10_witness :
    [] ∈ [['h', 'i'], ([] : List Char)]
    ∧ add_periods [['h', 'i'], ([] : List Char)] = none :=
  ⟨by decide, c10_empty_body_fails [['h', 'i'], []] (by decide)⟩
